import Mathlib

/-!
Verification development for the sidegit change-aggregation engine.

Shallow embedding of the core components:
  - status parsing (git.go: GetStatus, parseOrdinaryEntry, mapStatusByte),
  - repository discovery (scanner.go: ScanRepos, buildRepo),
  - tree construction and navigation (tree.go: NewTreeModel, rebuildVisible,
    isAncestorExpanded, ToggleCollapse, SelectedNode, MoveUp, MoveDown),
  - the rebuild step of the update loop (model.go: Update, reposScannedMsg).

Strings are modelled with Lean String (a structure over List Char); character
level work is done on List Char with structurally recursive helpers so that
all definitions evaluate inside the kernel.  Fallible code (the index panic
reachable in parseOrdinaryEntry) is modelled with Except.  Rendering, themes
and the actual process I/O are out of scope; external collaborators (the git
status command, branch resolution) are parameters of the scanner model.
-/

/-! ## Status parser (git.go) -/

/-- Status kinds; in Go these are the single letter StatusCode strings. -/
inductive StatusCode where
  | modified
  | added
  | deleted
  | renamed
  | copied
  | untracked
deriving DecidableEq

/-- One file status record (struct FileStatus in git.go). -/
structure FileStatus where
  path : String
  status : StatusCode
  isStaged : Bool := false
deriving DecidableEq

/-- Whitespace class used by strings.Fields and strings.TrimSpace
(unicode.IsSpace restricted to the Latin-1 range; the status protocol is
ASCII so the higher Unicode space characters never occur). -/
def goIsSpace (c : Char) : Bool :=
  c == ' ' || c == '\t' || c == '\n' || c == '\u000b' || c == '\u000c' ||
    c == '\r' || c == '\u0085' || c == ' '

/-- Worker for strings.Fields: cur holds the characters of the pending
field in reverse. -/
def fieldsAux (cur : List Char) : List Char → List (List Char)
  | [] => if cur.isEmpty then [] else [cur.reverse]
  | c :: cs =>
    if goIsSpace c then
      if cur.isEmpty then fieldsAux [] cs
      else cur.reverse :: fieldsAux [] cs
    else fieldsAux (c :: cur) cs

/-- strings.Fields: splits around runs of whitespace, dropping empty pieces. -/
def goFields (l : List Char) : List (List Char) :=
  fieldsAux [] l

/-- strings.TrimSpace on a list of characters. -/
def trimSpace (l : List Char) : List Char :=
  ((l.dropWhile goIsSpace).reverse.dropWhile goIsSpace).reverse

/-- strings.SplitN(s, tab, 2): at most one split, at the first tab. -/
def splitN2Tab (l : List Char) : List (List Char) :=
  let a := l.takeWhile (fun c => c != '\t')
  match l.dropWhile (fun c => c != '\t') with
  | [] => [l]
  | _ :: rest => [a, rest]

/-- strings.HasPrefix on lists of characters. -/
def leadsWith : List Char → List Char → Bool
  | [], _ => true
  | _ :: _, [] => false
  | a :: as, b :: bs => a == b && leadsWith as bs

/-- mapStatusByte from git.go; any unknown marker falls back to Modified. -/
def mapStatusByte (b : Char) : StatusCode :=
  match b with
  | 'M' => .modified
  | 'A' => .added
  | 'D' => .deleted
  | 'R' => .renamed
  | 'C' => .copied
  | _ => .modified

/-- parseOrdinaryEntry from git.go.  The input is one trimmed line.  The Go
code indexes xy[0] and xy[1] without a length check; a second field of length
one makes xy[1] panic, which is modelled as Except.error. -/
def parseOrdinaryEntry (line : List Char) : Except Unit (Option FileStatus) :=
  let fields := goFields line
  if fields.length < 9 then .ok none
  else
    let xy := (fields[1]?).getD []
    match xy[0]?, xy[1]? with
    | some stagedCode, some unstagedCode =>
      let lastField := fields.getLast?.getD []
      let path : List Char :=
        if (fields[0]?).getD [] = ['2'] then
          let parts := splitN2Tab lastField
          if parts.length = 2 then (parts[1]?).getD [] else lastField
        else lastField
      if unstagedCode ≠ '.' then
        .ok (some { path := ⟨path⟩, status := mapStatusByte unstagedCode })
      else if stagedCode ≠ '.' then
        .ok (some { path := ⟨path⟩, status := mapStatusByte stagedCode, isStaged := true })
      else .ok none
    | _, _ => .error ()

/-- Splitting a character list at every occurrence of one character
(strings.Split with a single character separator). -/
def splitOnChar (c : Char) : List Char → List (List Char)
  | [] => [[]]
  | a :: as =>
    let r := splitOnChar c as
    if a == c then [] :: r
    else
      match r with
      | [] => [[a]]
      | h :: t => (a :: h) :: t

/-- The line scanning loop of GetStatus from git.go, applied to the raw
status output already obtained from the external command.  Each line is
trimmed; blank lines and header lines are skipped; "1 " and "2 " lines go to
parseOrdinaryEntry; "? " lines become untracked entries; everything else is
ignored.  A panic inside parseOrdinaryEntry aborts the whole parse. -/
def parseStatusLines : List (List Char) → Except Unit (List FileStatus)
  | [] => .ok []
  | raw :: rest =>
    let line := trimSpace raw
    if line = [] || leadsWith ['#'] line then parseStatusLines rest
    else if leadsWith ['1', ' '] line || leadsWith ['2', ' '] line then
      match parseOrdinaryEntry line with
      | .error e => .error e
      | .ok none => parseStatusLines rest
      | .ok (some fs) => (parseStatusLines rest).map (fun t => fs :: t)
    else if leadsWith ['?', ' '] line then
      (parseStatusLines rest).map
        (fun t => { path := ⟨line.drop 2⟩, status := StatusCode.untracked } :: t)
    else parseStatusLines rest

/-- GetStatus after the external command returned its output. -/
def parseStatusOutput (out : List Char) : Except Unit (List FileStatus) :=
  parseStatusLines (splitOnChar '\n' out)

/-! ## Sorting helpers

Go compares strings byte for byte; for the ASCII paths involved this is
the lexicographic order on the character lists.  Both sort sites
(sort.Strings in NewTreeModel, sort.Slice in ScanRepos) are modelled with
a structural insertion sort, which any correct comparison sort agrees with
on the duplicate free keys arising here. -/

/-- Byte wise lexicographic strict order of Go string comparison. -/
def lexLt : List Char → List Char → Bool
  | [], [] => false
  | [], _ :: _ => true
  | _ :: _, [] => false
  | a :: as, b :: bs =>
    if a < b then true else if b < a then false else lexLt as bs

/-- The corresponding reflexive order. -/
def lexLe (a b : List Char) : Bool := !(lexLt b a)

/-- Go string less or equal, on the underlying characters. -/
def strLe (a b : String) : Bool := lexLe a.data b.data

/-- Insert into a list sorted by le. -/
def insertLe {α : Type} (le : α → α → Bool) (x : α) : List α → List α
  | [] => [x]
  | y :: ys => if le x y then x :: y :: ys else y :: insertLe le x ys

/-- Insertion sort by le. -/
def sortLe {α : Type} (le : α → α → Bool) : List α → List α
  | [] => []
  | x :: xs => insertLe le x (sortLe le xs)

/-! ## Repository discovery (scanner.go) -/

/-- One discovered working tree (struct Repo in scanner.go). -/
structure Repo where
  path : String
  relPath : String
  branch : String
  files : List FileStatus
deriving DecidableEq

/-- A depth two directory entry as seen by ScanRepos. -/
structure Entry2 where
  name : String
  isDir : Bool
  isRepo : Bool
deriving DecidableEq

/-- A depth one directory entry with its own listing. -/
structure Entry1 where
  name : String
  isDir : Bool
  isRepo : Bool
  readErr : Bool
  subs : List Entry2
deriving DecidableEq

/-- The filesystem as ScanRepos observes it: the (absolute) root path,
whether the root itself holds a .git directory, whether listing the root
fails, and the immediate entries. -/
structure FS where
  rootPath : String
  rootIsRepo : Bool
  readErr : Bool
  entries : List Entry1
deriving DecidableEq

/-- filepath.Join for the clean path shapes the scanner produces. -/
def joinPath (a b : String) : String := ⟨a.data ++ '/' :: b.data⟩

/-- The entry.Name()[0] == dot test of ScanRepos. -/
def hiddenName (s : String) : Bool :=
  match s.data with
  | [] => false
  | c :: _ => c == '.'

/-- The traversal of ScanRepos, collecting qualifying repository paths in
visit order: the root first when it qualifies, then each immediate
subdirectory, then each of its subdirectories.  A listing error at the root
stops the walk; a listing error inside one subdirectory skips only it. -/
def collectRepoPaths (fs : FS) : List String :=
  (if fs.rootIsRepo then [fs.rootPath] else []) ++
    (if fs.readErr then []
     else fs.entries.flatMap (fun e =>
       if !e.isDir || hiddenName e.name then []
       else
         let sub := joinPath fs.rootPath e.name
         (if e.isRepo then [sub] else []) ++
           (if e.readErr then []
            else e.subs.flatMap (fun e2 =>
              if !e2.isDir || hiddenName e2.name then []
              else if e2.isRepo then [joinPath sub e2.name] else []))))

/-- filepath.Rel for the path shapes formed by this scanner: the root
itself, or a path produced by joining names onto the root. -/
def relModel (root p : String) : String :=
  if p == root then "." else ⟨p.data.drop (root.data.length + 1)⟩

/-- The assignment files, _ := GetStatus(repoPath): the error is discarded
and a failed status leaves the nil (empty) file list. -/
def filesOf : Except Unit (List FileStatus) → List FileStatus
  | .ok fs => fs
  | .error _ => []

/-- buildRepo from scanner.go.  branchOf and statusOf stand for the external
FindBranch and GetStatus collaborators.  The key step: a relative path of
"." (the scan root) is replaced by the absolute repository path. -/
def buildRepoM (branchOf : String → String)
    (statusOf : String → Except Unit (List FileStatus))
    (root repoPath : String) : Repo :=
  let rel0 := relModel root repoPath
  let rel := if rel0 == "" || rel0 == "." then repoPath else rel0
  { path := repoPath, relPath := rel, branch := branchOf repoPath,
    files := filesOf (statusOf repoPath) }

/-- The comparator of the sort.Slice call in ScanRepos: keep a relative path
of "." first, otherwise compare relative paths. -/
def repoLess (a b : Repo) : Bool :=
  if a.relPath == "." then true
  else if b.relPath == "." then false
  else lexLt a.relPath.data b.relPath.data

/-- ScanRepos: walk, build each repository, then sort.  sort.Slice is an
unstable sort; all relative paths are distinct for real inputs so any
comparison sort computes the same list, modelled by insertion sort. -/
def scanModel (fs : FS) (branchOf : String → String)
    (statusOf : String → Except Unit (List FileStatus)) : List Repo :=
  sortLe repoLess
    ((collectRepoPaths fs).map (buildRepoM branchOf statusOf fs.rootPath))

/-! ## Change tree builder (tree.go) -/

/-- Node variants (NodeKind in tree.go). -/
inductive NodeKind where
  | repo
  | dir
  | file
deriving DecidableEq

/-- One row of the hierarchy (struct TreeNode in tree.go).  The Go struct
stores a pointer to the owning Repo next to RepoIndex; the index determines
it, so only the index is kept.  ParentDir is an int with -1 for none,
modelled as Option Nat. -/
structure TreeNode where
  kind : NodeKind
  repoIndex : Nat
  file : Option FileStatus
  dirPath : String
  depth : Nat
  collapsed : Bool
  parentDir : Option Nat
deriving DecidableEq

/-- The tree state (struct TreeModel in tree.go, minus the purely
presentational theme field). -/
structure TreeModel where
  nodes : List TreeNode
  visible : List Nat
  cursor : Nat
deriving DecidableEq

/-- Joining string pieces with one character (strings.Join with a single
character separator), on character lists. -/
def joinChar (c : Char) : List (List Char) → List Char
  | [] => []
  | [w] => w
  | w :: ws => w ++ c :: joinChar c ws

/-- strings.Split(s, "/"). -/
def splitSlash (s : String) : List String :=
  (splitOnChar '/' s.data).map (fun l => ⟨l⟩)

/-- strings.Join(parts, "/"). -/
def joinSlash (l : List String) : String :=
  ⟨joinChar '/' (l.map String.data)⟩

/-- filepath.Dir for the slash separated relative paths git reports:
everything before the last slash, or "." when there is no slash. -/
def goFilepathDir (p : String) : String :=
  match p.data.reverse.dropWhile (fun c => c != '/') with
  | [] => "."
  | _ :: rest => ⟨rest.reverse⟩

/-- The directory key NewTreeModel buckets a file under: filepath.Dir, with
"." replaced by the empty string for repository root files. -/
def bucketKey (p : String) : String :=
  let d := goFilepathDir p
  if d = "." then "" else d

/-- The dirFiles map of NewTreeModel as a lookup: the files of one bucket,
in original order (the map value is built by appending in file order). -/
def dirFilesLookup (files : List FileStatus) (d : String) : List FileStatus :=
  files.filter (fun f => bucketKey f.path == d)

/-- The proper and improper prefixes join(parts[:k]) for k = 1..len(parts)
that NewTreeModel inserts into dirSet for one directory path. -/
def ancestorDirs (d : String) : List String :=
  let parts := splitSlash d
  (List.range parts.length).map (fun k => joinSlash (parts.take (k + 1)))

/-- Worker for first occurrence deduplication: seen holds the keys already
emitted. -/
def dedupAux (seen : List String) : List String → List String
  | [] => []
  | a :: as =>
    if seen.contains a then dedupAux seen as
    else a :: dedupAux (a :: seen) as

/-- First occurrence deduplication, for a canonical enumeration of a Go set
realised as a map. -/
def dedupKeys (l : List String) : List String :=
  dedupAux [] l

/-- One canonical enumeration of the dirSet of NewTreeModel for one
repository: every ancestor directory of every non root bucket, once.  The
Go code ranges over two maps here, in unspecified order, and then sorts;
any enumeration it can produce is a permutation of this list. -/
def dirSetList (files : List FileStatus) : List String :=
  dedupKeys (((files.map (fun f => bucketKey f.path)).filter
    (fun d => d != "")).flatMap ancestorDirs)

/-- sort.Strings. -/
def sortStrings (l : List String) : List String :=
  sortLe strLe l

/-- The mutable state of the addDir closure in NewTreeModel: the node
sequence built so far and the dirNodeIdx map (as an association list, most
recent binding first, like Go map assignment). -/
structure BuildSt where
  nodes : List TreeNode
  dirIdx : List (String × Nat)

/-- The recursive addDir closure of NewTreeModel.  The directory is given
as its split parts in reverse order (head = last segment), so the recursive
call on the parent directory, parts[:len-1] in Go, is the structural tail.
The parts carry no slash, so re-splitting the joined parent string, as the
Go code does, yields exactly the tail.  Ensures the parent chain exists,
then appends the directory node followed by the files bucketed directly
under it. -/
def addDir (repoI repoIdx : Nat) (dfiles : String → List FileStatus) :
    List String → BuildSt → BuildSt
  | [], st => st
  | seg :: rest, st =>
    let dir := joinSlash (seg :: rest).reverse
    match (List.lookup dir st.dirIdx : Option Nat) with
    | some _ => st
    | none =>
      let depth := rest.length + 1
      let st1 := if rest.isEmpty then st else addDir repoI repoIdx dfiles rest st
      let parentIdx := if rest.isEmpty then repoIdx
        else (List.lookup (joinSlash rest.reverse) st1.dirIdx).getD 0
      let dirNodeI := st1.nodes.length
      let fileNodes := (dfiles dir).map (fun f =>
        { kind := NodeKind.file, repoIndex := repoI, file := some f,
          dirPath := "", depth := depth + 1, collapsed := false,
          parentDir := some dirNodeI : TreeNode })
      { nodes := st1.nodes ++
          ({ kind := NodeKind.dir, repoIndex := repoI, file := none,
             dirPath := seg, depth := depth,
             collapsed := false, parentDir := some parentIdx : TreeNode } :: fileNodes),
        dirIdx := (dir, dirNodeI) :: st1.dirIdx }

/-- The per repository part of NewTreeModel, with the directory list
already sorted: emit the repository node, walk the sorted directories
through addDir, then append the repository root files. -/
def buildRepoBlockSorted (repoI : Nat) (r : Repo) (allDirs : List String)
    (acc : List TreeNode) : List TreeNode :=
  let repoIdx := acc.length
  let nodes0 := acc ++
    [{ kind := NodeKind.repo, repoIndex := repoI, file := none, dirPath := "",
       depth := 0, collapsed := false, parentDir := none : TreeNode }]
  let dfiles := dirFilesLookup r.files
  let st := allDirs.foldl
    (fun s d => addDir repoI repoIdx dfiles (splitSlash d).reverse s)
    { nodes := nodes0, dirIdx := [] }
  st.nodes ++ (dfiles "").map (fun f =>
    { kind := NodeKind.file, repoIndex := repoI, file := some f,
      dirPath := "", depth := 1, collapsed := false,
      parentDir := some repoIdx : TreeNode })

/-- The per repository part of NewTreeModel, given the set enumeration the
range over dirSet produced; the code sorts it immediately. -/
def buildRepoBlock (repoI : Nat) (r : Repo) (enum : List String)
    (acc : List TreeNode) : List TreeNode :=
  buildRepoBlockSorted repoI r (sortStrings enum) acc

/-- The outer loop of NewTreeModel over the repositories, each paired with
the enumeration its dirSet range produced. -/
def buildAllAux : Nat → List (Repo × List String) → List TreeNode → List TreeNode
  | _, [], acc => acc
  | i, (r, e) :: rest, acc => buildAllAux (i + 1) rest (buildRepoBlock i r e acc)

/-- isAncestorExpanded from tree.go, walking the parentDir chain.  The walk
is fuelled; every tree this program builds has strictly decreasing parent
indices, so fuel nodes.length never runs out (see addDir_wf below).  An out
of range parent index would panic in Go and cannot occur on built trees;
it is mapped to true. -/
def isAncExp (nodes : List TreeNode) : Nat → TreeNode → Bool
  | 0, _ => true
  | fuel + 1, n =>
    match n.parentDir with
    | none => true
    | some p =>
      match nodes[p]? with
      | none => true
      | some par => if par.collapsed then false else isAncExp nodes fuel par

/-- isAncestorExpanded with its fuel instantiated. -/
def isAncestorExpanded (nodes : List TreeNode) (n : TreeNode) : Bool :=
  isAncExp nodes nodes.length n

/-- The switch of rebuildVisible for the node at index i: repository nodes
are always kept, directory and file nodes need all ancestors expanded. -/
def keepNodeAt (nodes : List TreeNode) (i : Nat) : Bool :=
  match nodes[i]? with
  | none => false
  | some n =>
    match n.kind with
    | NodeKind.repo => true
    | NodeKind.dir => isAncestorExpanded nodes n
    | NodeKind.file => isAncestorExpanded nodes n

/-- The visible index list rebuildVisible computes, in index order. -/
def visibleList (nodes : List TreeNode) : List Nat :=
  (List.range nodes.length).filter (keepNodeAt nodes)

/-- rebuildVisible from tree.go: recompute the visible list, then clamp the
cursor.  Go clamps with max(0, len-1); for the Nat cursor, truncated
subtraction gives the same value. -/
def rebuildVisible (tm : TreeModel) : TreeModel :=
  let v := visibleList tm.nodes
  { tm with
    visible := v
    cursor := if v.length ≤ tm.cursor then v.length - 1 else tm.cursor }

/-- NewTreeModel on one enumeration choice per repository. -/
def buildTreeWith (repos : List Repo) (enums : List (List String)) : TreeModel :=
  rebuildVisible { nodes := buildAllAux 0 (repos.zip enums) [], visible := [], cursor := 0 }

/-- The canonical enumeration choice for every repository. -/
def canonicalEnums (repos : List Repo) : List (List String) :=
  repos.map (fun r => dirSetList r.files)

/-- NewTreeModel from tree.go (with the canonical set enumerations;
C8 proves the choice does not matter). -/
def NewTreeModel (repos : List Repo) : TreeModel :=
  buildTreeWith repos (canonicalEnums repos)

/-- MoveUp from tree.go. -/
def MoveUp (tm : TreeModel) : TreeModel :=
  if 0 < tm.cursor then { tm with cursor := tm.cursor - 1 } else tm

/-- MoveDown from tree.go (cursor < len(visible)-1, on ints; for the Nat
model the truncated subtraction agrees for every cursor ≥ 0). -/
def MoveDown (tm : TreeModel) : TreeModel :=
  if tm.cursor < tm.visible.length - 1 then { tm with cursor := tm.cursor + 1 } else tm

/-- SelectedNode from tree.go: none when the visible list is empty or the
cursor is out of range, otherwise the node at the selected visible index. -/
def selectedNode (tm : TreeModel) : Option TreeNode :=
  match tm.visible[tm.cursor]? with
  | none => none
  | some i => tm.nodes[i]?

/-- ToggleCollapse from tree.go: a nil selection returns unchanged; a file
selection does nothing; a repository or directory selection flips its
collapsed flag in place and recomputes visibility.  (The inner none case
models the node index panic Go could only reach on a corrupt visible list;
on program states visible always indexes into nodes.) -/
def ToggleCollapse (tm : TreeModel) : TreeModel :=
  match tm.visible[tm.cursor]? with
  | none => tm
  | some i =>
    match tm.nodes[i]? with
    | none => tm
    | some n =>
      match n.kind with
      | NodeKind.file => tm
      | _ => rebuildVisible
          { tm with nodes := tm.nodes.set i { n with collapsed := !n.collapsed } }

/-- The reposScannedMsg branch of Update in model.go: the old tree is
discarded and a fresh TreeModel is built from the scanned repositories
alone. -/
def applyReposScanned (_old : TreeModel) (repos : List Repo) : TreeModel :=
  NewTreeModel repos

/-- The enumerations NewTreeModel may range over: one per repository, each
listing that repository's dirSet in some order. -/
def validEnums : List Repo → List (List String) → Prop
  | [], [] => True
  | r :: rs, e :: es => e.Perm (dirSetList r.files) ∧ validEnums rs es
  | _, _ => False

/-- Structural well-formedness of one node at its index: the parent link
points strictly downward, and repository nodes have no parent. -/
def nodeWF (i : Nat) (n : TreeNode) : Bool :=
  (match n.parentDir with
   | none => true
   | some p => decide (p < i)) &&
  (match n.kind with
   | NodeKind.repo => decide (n.parentDir = none)
   | _ => true)

/-- Structural well-formedness of a node sequence. -/
def wfNodes (nodes : List TreeNode) : Bool :=
  (List.range nodes.length).all (fun i =>
    match nodes[i]? with
    | none => true
    | some n => nodeWF i n)

/-- The specification predicate of the visibility rule: walking the
parentDir chain of a node to its root meets no collapsed ancestor. -/
inductive ChainClear (nodes : List TreeNode) : TreeNode → Prop where
  | top : ∀ n : TreeNode, n.parentDir = none → ChainClear nodes n
  | step : ∀ (n : TreeNode) (p : Nat) (par : TreeNode), n.parentDir = some p →
      nodes[p]? = some par → par.collapsed = false → ChainClear nodes par →
      ChainClear nodes n

/-! ## Sample inputs used by witnesses and counterexamples -/

/-- One repository with one file inside one directory. -/
def sampleRepos : List Repo :=
  [{ path := "/w/proj", relPath := "proj", branch := "main",
     files := [{ path := "src/main.go", status := StatusCode.added }] }]

/-- The tree built from sampleRepos: repository, directory src, one file. -/
def sampleTree : TreeModel := NewTreeModel sampleRepos

/-- sampleTree with the cursor moved onto the src directory node and that
directory collapsed by the user. -/
def sampleCollapsed : TreeModel := ToggleCollapse (MoveDown sampleTree)

/-- One repository with three root level files (visible length four). -/
def sampleReposWide : List Repo :=
  [{ path := "/w/p", relPath := "p", branch := "m",
     files := [{ path := "a.txt", status := StatusCode.modified },
               { path := "b.txt", status := StatusCode.modified },
               { path := "c.txt", status := StatusCode.modified }] }]

/-- The same repository after shrinking to one file (visible length two). -/
def sampleReposNarrow : List Repo :=
  [{ path := "/w/p", relPath := "p", branch := "m",
     files := [{ path := "a.txt", status := StatusCode.modified }] }]

/-- sampleReposWide tree with the cursor moved to the last row. -/
def sampleTreeAtEnd : TreeModel :=
  MoveDown (MoveDown (MoveDown (NewTreeModel sampleReposWide)))

/-- A scan root that is itself a repository and contains one repository
subdirectory whose name sorts before the absolute root path. -/
def fsRootAndDash : FS :=
  { rootPath := "/r", rootIsRepo := true, readErr := false,
    entries := [{ name := "-a", isDir := true, isRepo := true,
                  readErr := false, subs := [] }] }

/-- A branch resolution collaborator that always answers main. -/
def constBranch : String → String := fun _ => "main"

/-- A status collaborator that always succeeds with no changes. -/
def emptyStatus : String → Except Unit (List FileStatus) := fun _ => Except.ok []

/-! ## C6: the status parse is not total -/

/-- C6: the claim says parsing is total over all input strings and drops
malformed lines.  A line with at least nine fields whose second field is a
single character reaches xy[1] in parseOrdinaryEntry and panics (modelled
as Except.error), aborting the whole parse; lines with too few fields are
indeed dropped. -/
theorem C6_panic_on_short_marker_field :
    parseStatusOutput ("1 M . . . . . . .").data = Except.error () ∧
    parseStatusOutput ("garbage line\n1 M\n").data = Except.ok [] :=
  ⟨rfl, rfl⟩

/-! ## C4: the scan root is not always first -/

/-- C4: buildRepo rewrites the root's relative path "." to its absolute
path, so the special case for "." in the sort comparator never fires; a
subdirectory whose display path sorts below the absolute root path (here
"-a" versus "/r") ends up before the scan root, although the root
qualifies as a repository. -/
theorem C4_root_not_first :
    fsRootAndDash.rootIsRepo = true ∧
    (scanModel fsRootAndDash constBranch emptyStatus).map Repo.relPath = ["-a", "/r"] ∧
    ((scanModel fsRootAndDash constBranch emptyStatus).head?).map Repo.path = some "/r/-a" := by
  refine ⟨rfl, by decide, by decide⟩

/-! ## C1: collapse state is not carried forward -/

/-- C1 counterexample: the src directory node of sampleCollapsed has
collapsed=true; rebuilding from the unchanged repository list (the
reposScannedMsg branch of Update) produces a node of identical semantic
identity with collapsed=false, so the collapse flag is not carried
forward. -/
theorem C1_counterexample :
    (sampleCollapsed.nodes[1]?).map TreeNode.collapsed = some true ∧
    (sampleCollapsed.nodes[1]?).map TreeNode.dirPath = some "src" ∧
    (((applyReposScanned sampleCollapsed sampleRepos).nodes[1]?).map TreeNode.collapsed)
      = some false ∧
    (((applyReposScanned sampleCollapsed sampleRepos).nodes[1]?).map TreeNode.dirPath)
      = some "src" := by
  refine ⟨by decide, by decide, by decide, by decide⟩

/-! ## C5: the cursor is reset, not clamped, on rebuild -/

/-- C5 counterexample: a visible list of length four with the cursor on the
last row, rebuilt (reposScannedMsg) into a list of length two, leaves the
cursor at 0, not at the claimed 2-1 = 1. -/
theorem C5_counterexample :
    sampleTreeAtEnd.cursor = 3 ∧ sampleTreeAtEnd.visible.length = 4 ∧
    (applyReposScanned sampleTreeAtEnd sampleReposNarrow).visible.length = 2 ∧
    (applyReposScanned sampleTreeAtEnd sampleReposNarrow).cursor ≠ 2 - 1 ∧
    (applyReposScanned sampleTreeAtEnd sampleReposNarrow).cursor = 0 := by
  refine ⟨by decide, by decide, by decide, by decide, by decide⟩

/-! ## C10: ToggleCollapse is a no-op on files and empty lists -/

/-- C10: when the selected node is a file, or nothing is selected (in
particular when the visible list is empty), ToggleCollapse changes
nothing: nodes, collapse flags, visible list and cursor are all kept. -/
theorem C10_toggle_noop (tm : TreeModel)
    (h : tm.visible = [] ∨ ∃ n, selectedNode tm = some n ∧ n.kind = NodeKind.file) :
    ToggleCollapse tm = tm := by
  rcases h with h | ⟨n, hn, hk⟩
  · unfold ToggleCollapse
    rw [h]
    simp
  · have hsel := hn
    unfold selectedNode at hsel
    cases hv : tm.visible[tm.cursor]? with
    | none =>
      rw [hv] at hsel
      simp at hsel
    | some i =>
      rw [hv] at hsel
      replace hsel : tm.nodes[i]? = some n := hsel
      unfold ToggleCollapse
      simp only [hv, hsel, hk]

/-- The file node selected in sampleTree after two MoveDown steps. -/
def sampleFileNode : TreeNode :=
  { kind := NodeKind.file, repoIndex := 0,
    file := some { path := "src/main.go", status := StatusCode.added },
    dirPath := "", depth := 2, collapsed := false, parentDir := some 1 }

/-- Witness for C10 at a concrete state with a file selected. -/
theorem C10_witness :
    ToggleCollapse (MoveDown (MoveDown sampleTree)) = MoveDown (MoveDown sampleTree) :=
  C10_toggle_noop (MoveDown (MoveDown sampleTree))
    (Or.inr ⟨sampleFileNode, by decide, rfl⟩)

/-! ## C5 (amended): in-place recomputation clamps, a rebuild resets -/

/-- C5 amended: after an in place visibility recomputation the cursor is
min(previous cursor, new length - 1) — clamped into range, 0 when the list
is empty, unchanged when still in range; but the rebuild done for a
reposScannedMsg constructs a fresh TreeModel whose cursor is 0 regardless
of the previous cursor, so a shrinking rebuild puts the cursor at 0, not
at new length - 1. -/
theorem C5_clamp_in_place_reset_on_rebuild (tm : TreeModel) (repos : List Repo) :
    (rebuildVisible tm).cursor = min tm.cursor ((rebuildVisible tm).visible.length - 1) ∧
    (applyReposScanned tm repos).cursor = 0 := by
  constructor
  · have h1 : (rebuildVisible tm).cursor =
        if (visibleList tm.nodes).length ≤ tm.cursor then
          (visibleList tm.nodes).length - 1 else tm.cursor := rfl
    have h2 : (rebuildVisible tm).visible = visibleList tm.nodes := rfl
    rw [h1, h2]
    split <;> omega
  · have h1 : (applyReposScanned tm repos).cursor =
        if (visibleList (buildAllAux 0 (repos.zip (canonicalEnums repos)) [])).length ≤ 0 then
          (visibleList (buildAllAux 0 (repos.zip (canonicalEnums repos)) [])).length - 1
        else 0 := rfl
    rw [h1]
    split <;> omega

/-! ## C1 (amended): the rebuild carries no collapse state forward -/

/-- Nodes appended by addDir all carry collapsed=false. -/
theorem addDir_collapsed_mem (repoI repoIdx : Nat) (dfiles : String → List FileStatus)
    (rparts : List String) (st : BuildSt) :
    ∀ n ∈ (addDir repoI repoIdx dfiles rparts st).nodes,
      n ∈ st.nodes ∨ n.collapsed = false := by
  induction rparts generalizing st with
  | nil => intro n hn; exact Or.inl hn
  | cons seg rest ih =>
    intro n hn
    rw [addDir] at hn
    simp only [] at hn
    cases hl : List.lookup (joinSlash ((seg :: rest).reverse)) st.dirIdx with
    | some v => rw [hl] at hn; exact Or.inl hn
    | none =>
      rw [hl] at hn
      simp only [List.mem_append, List.mem_cons, List.mem_map] at hn
      rcases hn with hn | hn | hn
      · cases hre : rest.isEmpty with
        | true => rw [hre] at hn; simp only [if_pos rfl] at hn; exact Or.inl hn
        | false =>
          rw [hre] at hn
          simp only [Bool.false_eq_true, if_neg] at hn
          exact ih st n hn
      · right; rw [hn]
      · right; rcases hn with ⟨f, _, hf⟩; rw [← hf]

/-- The directory loop of one repository block keeps the invariant. -/
theorem foldl_addDir_collapsed (repoI repoIdx : Nat) (dfiles : String → List FileStatus)
    (dirs : List String) (st0 : BuildSt) :
    ∀ n ∈ (dirs.foldl (fun s d => addDir repoI repoIdx dfiles (splitSlash d).reverse s) st0).nodes,
      n ∈ st0.nodes ∨ n.collapsed = false := by
  induction dirs generalizing st0 with
  | nil => intro n hn; exact Or.inl hn
  | cons d ds ih =>
    intro n hn
    rcases ih (addDir repoI repoIdx dfiles (splitSlash d).reverse st0) n hn with h | h
    · exact addDir_collapsed_mem _ _ _ _ _ n h
    · exact Or.inr h

/-- One repository block only appends collapsed=false nodes. -/
theorem buildRepoBlockSorted_collapsed (repoI : Nat) (r : Repo) (allDirs : List String)
    (acc : List TreeNode) :
    ∀ n ∈ buildRepoBlockSorted repoI r allDirs acc, n ∈ acc ∨ n.collapsed = false := by
  intro n hn
  unfold buildRepoBlockSorted at hn
  simp only [List.mem_append, List.mem_map] at hn
  rcases hn with hn | hn
  · rcases foldl_addDir_collapsed _ _ _ _ _ n hn with h | h
    · simp only [List.mem_append, List.mem_singleton] at h
      rcases h with h | h
      · exact Or.inl h
      · right; rw [h]
    · exact Or.inr h
  · right; rcases hn with ⟨f, _, hf⟩; rw [← hf]

/-- The whole build only produces collapsed=false nodes on top of acc. -/
theorem buildAllAux_collapsed (i : Nat) (prs : List (Repo × List String))
    (acc : List TreeNode) :
    ∀ n ∈ buildAllAux i prs acc, n ∈ acc ∨ n.collapsed = false := by
  induction prs generalizing i acc with
  | nil => intro n hn; exact Or.inl hn
  | cons p rest ih =>
    intro n hn
    rcases ih (i + 1) (buildRepoBlock i p.1 p.2 acc) n hn with h | h
    · exact buildRepoBlockSorted_collapsed _ _ _ _ n h
    · exact Or.inr h

/-- C1 amended: the tree builder is handed only the Repository list — the
reposScannedMsg branch of Update discards the previous node set — and every
node of the rebuilt tree has collapsed=false, so no collapse state is
carried forward and a collapsed directory comes back expanded after a
rebuild from unchanged data. -/
theorem C1_rebuild_resets_collapse (old : TreeModel) (repos : List Repo) :
    ∀ n ∈ (applyReposScanned old repos).nodes, n.collapsed = false := by
  intro n hn
  have hnodes : (applyReposScanned old repos).nodes =
      buildAllAux 0 (repos.zip (canonicalEnums repos)) [] := rfl
  rw [hnodes] at hn
  rcases buildAllAux_collapsed 0 _ [] n hn with h | h
  · exact absurd h (List.not_mem_nil n)
  · exact h

/-- The src directory node of the rebuilt sample tree. -/
def srcDirNode : TreeNode :=
  { kind := NodeKind.dir, repoIndex := 0, file := none, dirPath := "src",
    depth := 1, collapsed := false, parentDir := some 0 }

/-- Witness for C1's amended theorem at the sample state. -/
theorem C1_witness : srcDirNode.collapsed = false :=
  C1_rebuild_resets_collapse sampleCollapsed sampleRepos srcDirNode (by decide)

/-! ## C7: a failing status command affects only its own repository -/

/-- Inserting permutes. -/
theorem insertLe_perm {α : Type} (le : α → α → Bool) (x : α) (l : List α) :
    (insertLe le x l).Perm (x :: l) := by
  induction l with
  | nil => exact List.Perm.refl _
  | cons y ys ih =>
    unfold insertLe
    split
    · exact List.Perm.refl _
    · exact (List.Perm.cons y ih).trans (List.Perm.swap x y ys)

/-- Sorting permutes. -/
theorem sortLe_perm {α : Type} (le : α → α → Bool) (l : List α) :
    (sortLe le l).Perm l := by
  induction l with
  | nil => exact List.Perm.refl _
  | cons x xs ih => exact (insertLe_perm le x (sortLe le xs)).trans (List.Perm.cons x ih)

/-- C7: when the status collaborator fails for one repository path, the
scan still lists that repository, with an empty file list, and the whole
scan result is exactly what a successful empty status at that path would
produce — every other repository is unaffected. -/
theorem C7_status_failure_isolated (fs : FS) (branchOf : String → String)
    (statusOf : String → Except Unit (List FileStatus)) (p : String)
    (hp : statusOf p = Except.error ()) :
    (∀ r ∈ scanModel fs branchOf statusOf, r.path = p → r.files = []) ∧
    scanModel fs branchOf statusOf =
      scanModel fs branchOf (fun q => if q = p then Except.ok [] else statusOf q) := by
  constructor
  · intro r hr hrp
    have hmem : r ∈ (collectRepoPaths fs).map (buildRepoM branchOf statusOf fs.rootPath) :=
      (sortLe_perm repoLess _).mem_iff.mp hr
    rcases List.mem_map.mp hmem with ⟨q, _, hbuild⟩
    subst hbuild
    replace hrp : q = p := hrp
    subst hrp
    show filesOf (statusOf q) = []
    rw [hp]
    rfl
  · unfold scanModel
    apply congrArg
    apply List.map_congr_left
    intro q _
    by_cases hqp : q = p
    · subst hqp
      simp [buildRepoM, hp, filesOf]
    · simp [buildRepoM, hqp]

/-- A scan root that is a repository with no subdirectories. -/
def fsLoneRoot : FS :=
  { rootPath := "/r", rootIsRepo := true, readErr := false, entries := [] }

/-- A status collaborator failing exactly at the root repository. -/
def statusFailRoot : String → Except Unit (List FileStatus) :=
  fun q => if q = "/r" then Except.error () else Except.ok []

/-- Witness for C7 at a concrete scan with a failing status. -/
theorem C7_witness :
    scanModel fsLoneRoot constBranch statusFailRoot =
      scanModel fsLoneRoot constBranch
        (fun q => if q = "/r" then Except.ok [] else statusFailRoot q) :=
  (C7_status_failure_isolated fsLoneRoot constBranch statusFailRoot "/r" rfl).2

/-! ## Field splitting lemmas for the status line shapes -/

/-- A token free of Go whitespace. -/
def noWS (l : List Char) : Bool := l.all (fun c => !goIsSpace c)

/-- Reading one whitespace free token up to a whitespace character. -/
theorem fieldsAux_word (w : List Char) (c : Char) (l cur : List Char)
    (hw : noWS w = true) (hc : goIsSpace c = true) (hne : cur.reverse ++ w ≠ []) :
    fieldsAux cur (w ++ c :: l) = (cur.reverse ++ w) :: fieldsAux [] l := by
  induction w generalizing cur with
  | nil =>
    have hcur : ¬cur.isEmpty := by
      cases cur with
      | nil => simp at hne
      | cons a as => simp [List.isEmpty]
    show fieldsAux cur (c :: l) = _
    rw [fieldsAux, hc]
    simp [hcur]
  | cons a w' ih =>
    have ha : goIsSpace a = false := by
      have := (List.all_eq_true.mp hw) a (by simp)
      simpa using this
    have hw' : noWS w' = true := by
      simp only [noWS, List.all_cons, Bool.and_eq_true] at hw
      exact hw.2
    show fieldsAux cur (a :: (w' ++ c :: l)) = _
    rw [fieldsAux, ha]
    simp only [Bool.false_eq_true, if_false]
    rw [ih (a :: cur) hw' (by simp)]
    simp [List.append_assoc]

/-- Reading a trailing whitespace free token. -/
theorem fieldsAux_last (w cur : List Char)
    (hw : noWS w = true) (hne : cur.reverse ++ w ≠ []) :
    fieldsAux cur w = [cur.reverse ++ w] := by
  induction w generalizing cur with
  | nil =>
    have hcur : ¬cur.isEmpty := by
      cases cur with
      | nil => simp at hne
      | cons a as => simp [List.isEmpty]
    rw [fieldsAux]
    simp [hcur]
  | cons a w' ih =>
    have ha : goIsSpace a = false := by
      have := (List.all_eq_true.mp hw) a (by simp)
      simpa using this
    have hw' : noWS w' = true := by
      simp only [noWS, List.all_cons, Bool.and_eq_true] at hw
      exact hw.2
    show fieldsAux cur (a :: w') = _
    rw [fieldsAux, ha]
    simp only [Bool.false_eq_true, if_false]
    rw [ih (a :: cur) hw' (by simp)]
    simp [List.append_assoc]

/-- Fields of a token followed by a whitespace character. -/
theorem goFields_word (w : List Char) (c : Char) (l : List Char)
    (hw : noWS w = true) (hne : w ≠ []) (hc : goIsSpace c = true) :
    goFields (w ++ c :: l) = w :: goFields l := by
  unfold goFields
  have := fieldsAux_word w c l [] hw hc (by simpa using hne)
  simpa using this

/-- Fields of a single token. -/
theorem goFields_single (w : List Char) (hw : noWS w = true) (hne : w ≠ []) :
    goFields w = [w] := by
  unfold goFields
  have := fieldsAux_last w [] hw (by simpa using hne)
  simpa using this

/-- The shape of a status line: space separated tokens before a tail. -/
def sepJoin (ws : List (List Char)) (tail : List Char) : List Char :=
  ws.foldr (fun w acc => w ++ ' ' :: acc) tail

/-- Fields of a well formed token sequence. -/
theorem goFields_sepJoin (ws : List (List Char)) (tail : List Char)
    (h : ∀ w ∈ ws, noWS w = true ∧ w ≠ []) :
    goFields (sepJoin ws tail) = ws ++ goFields tail := by
  induction ws with
  | nil => rfl
  | cons w ws' ih =>
    have hw := h w (by simp)
    show goFields (w ++ ' ' :: sepJoin ws' tail) = _
    rw [goFields_word w ' ' _ hw.1 hw.2 (by decide)]
    rw [ih (fun w' hw' => h w' (by simp [hw']))]
    rfl

/-- SplitN on tab leaves a tab free token whole. -/
theorem splitN2Tab_noTab (l : List Char) (h : noWS l = true) :
    splitN2Tab l = [l] := by
  have hdrop : l.dropWhile (fun c => c != '\t') = [] := by
    rw [List.dropWhile_eq_nil_iff]
    intro x hx
    have hxs := (List.all_eq_true.mp h) x hx
    simp only [Bool.not_eq_true'] at hxs
    simp only [bne_iff_ne, ne_eq]
    intro hteq
    rw [hteq] at hxs
    exact absurd hxs (by decide)
  unfold splitN2Tab
  rw [hdrop]

/-! ## C2: rename entries keep the post-rename path -/

/-- C2: for every rename/copy entry line — first field "2", the usual seven
header tokens, then the original path and the new path separated by a tab —
any FileChange the parser emits carries the post-rename path, never the
original.  (strings.Fields also splits at the tab, so the new path is the
last field and the SplitN branch keeps it whole.) -/
theorem C2_rename_uses_new_path
    (xy sub mH mI mW hH hI score orig new : List Char)
    (hall : ∀ w ∈ [xy, sub, mH, mI, mW, hH, hI, score, orig, new],
      noWS w = true ∧ w ≠ []) :
    ∀ fs : FileStatus,
      parseOrdinaryEntry
        (sepJoin [['2'], xy, sub, mH, mI, mW, hH, hI, score] (orig ++ '\t' :: new)) =
        Except.ok (some fs) →
      fs.path = ⟨new⟩ := by
  intro fs h
  have horig := hall orig (by simp)
  have hnew := hall new (by simp)
  have hxy := hall xy (by simp)
  have hfields : goFields
      (sepJoin [['2'], xy, sub, mH, mI, mW, hH, hI, score] (orig ++ '\t' :: new)) =
      [['2'], xy, sub, mH, mI, mW, hH, hI, score, orig, new] := by
    rw [goFields_sepJoin]
    · rw [goFields_word orig '\t' new horig.1 horig.2 (by decide),
        goFields_single new hnew.1 hnew.2]
      rfl
    · intro w hw
      simp only [List.mem_cons, List.not_mem_nil, or_false] at hw
      rcases hw with rfl | rfl | rfl | rfl | rfl | rfl | rfl | rfl | rfl
      · exact ⟨by decide, by decide⟩
      all_goals exact hall _ (by simp)
  unfold parseOrdinaryEntry at h
  rw [hfields] at h
  rcases hc0 : xy with _ | ⟨c0, xyt⟩
  · exact absurd (hc0 ▸ hxy.2) (by simp)
  rcases hc1 : xyt with _ | ⟨c1, xyt'⟩
  · rw [hc0, hc1] at h
    simp at h
  rw [hc0, hc1] at h
  simp only [List.length_cons, List.length_nil] at h
  norm_num at h
  rw [splitN2Tab_noTab new hnew.1] at h
  simp at h
  split at h
  · split at h
    · simp at h
    · simp only [Except.ok.injEq, Option.some.injEq] at h
      rw [← h]
  · simp only [Except.ok.injEq, Option.some.injEq] at h
    rw [← h]

/-- Witness for C2 on a concrete rename line. -/
theorem C2_witness :
    ({ path := "newname.txt", status := StatusCode.renamed, isStaged := true } :
      FileStatus).path = ⟨"newname.txt".data⟩ :=
  C2_rename_uses_new_path "R.".data "N...".data "100644".data "100644".data
    "100644".data "aaa".data "bbb".data "R100".data "old.txt".data "newname.txt".data
    (by decide)
    { path := "newname.txt", status := StatusCode.renamed, isStaged := true }
    (by rfl)

/-! ## C3: unstaged marker wins, staged marker is the fallback -/

/-- C3: for a well formed ordinary ("1") or rename ("2") entry carrying the
two marker characters x (staged) and y (unstaged): when y is not the empty
marker "." the parser emits exactly one record, unstaged, with y's status
kind, whatever x is; otherwise when x is not "." it emits exactly one
record, staged, with x's status kind; otherwise it emits nothing. -/
theorem C3_marker_precedence
    (x y : Char) (sub mH mI mW hH hI score p orig new : List Char)
    (hx : goIsSpace x = false) (hy : goIsSpace y = false)
    (hall : ∀ w ∈ [sub, mH, mI, mW, hH, hI, score, p, orig, new],
      noWS w = true ∧ w ≠ [])
    (line path : List Char)
    (hshape :
      (line = sepJoin [['1'], [x, y], sub, mH, mI, mW, hH, hI] p ∧ path = p) ∨
      (line = sepJoin [['2'], [x, y], sub, mH, mI, mW, hH, hI, score]
          (orig ++ '\t' :: new) ∧ path = new)) :
    parseOrdinaryEntry line = Except.ok (
      if y ≠ '.' then
        some { path := ⟨path⟩, status := mapStatusByte y, isStaged := false }
      else if x ≠ '.' then
        some { path := ⟨path⟩, status := mapStatusByte x, isStaged := true }
      else none) := by
  have hxy : noWS [x, y] = true ∧ ([x, y] : List Char) ≠ [] := by
    refine ⟨?_, by simp⟩
    simp [noWS, hx, hy]
  rcases hshape with ⟨hl, hp⟩ | ⟨hl, hp⟩ <;> subst hl <;> rw [hp]
  · have hpw := hall p (by simp)
    have hfields : goFields (sepJoin [['1'], [x, y], sub, mH, mI, mW, hH, hI] p) =
        [['1'], [x, y], sub, mH, mI, mW, hH, hI, p] := by
      rw [goFields_sepJoin]
      · rw [goFields_single p hpw.1 hpw.2]
        rfl
      · intro w hw
        simp only [List.mem_cons, List.not_mem_nil, or_false] at hw
        rcases hw with rfl | rfl | rfl | rfl | rfl | rfl | rfl | rfl
        · exact ⟨by decide, by decide⟩
        · exact hxy
        all_goals exact hall _ (by simp)
    unfold parseOrdinaryEntry
    rw [hfields]
    have hne12 : (['1'] : List Char) ≠ ['2'] := by decide
    simp only [List.length_cons, List.length_nil]
    norm_num
    simp [hne12]
    by_cases hy' : y = '.' <;> by_cases hx' : x = '.' <;> simp [hy', hx']
  · have horig := hall orig (by simp)
    have hnew := hall new (by simp)
    have hfields : goFields (sepJoin [['2'], [x, y], sub, mH, mI, mW, hH, hI, score]
        (orig ++ '\t' :: new)) =
        [['2'], [x, y], sub, mH, mI, mW, hH, hI, score, orig, new] := by
      rw [goFields_sepJoin]
      · rw [goFields_word orig '\t' new horig.1 horig.2 (by decide),
          goFields_single new hnew.1 hnew.2]
        rfl
      · intro w hw
        simp only [List.mem_cons, List.not_mem_nil, or_false] at hw
        rcases hw with rfl | rfl | rfl | rfl | rfl | rfl | rfl | rfl | rfl
        · exact ⟨by decide, by decide⟩
        · exact hxy
        all_goals exact hall _ (by simp)
    unfold parseOrdinaryEntry
    rw [hfields]
    simp only [List.length_cons, List.length_nil]
    norm_num
    rw [splitN2Tab_noTab new hnew.1]
    simp
    by_cases hy' : y = '.' <;> by_cases hx' : x = '.' <;> simp [hy', hx']

/-- Witness for C3 on a concrete ordinary line with only a staged marker. -/
theorem C3_witness :
    parseOrdinaryEntry (sepJoin [['1'], ['A', '.'], "N...".data, "100644".data,
      "100644".data, "100644".data, "aaa".data, "bbb".data] "p.txt".data) =
      Except.ok (some { path := ⟨"p.txt".data⟩, status := StatusCode.added, isStaged := true }) := by
  have h := C3_marker_precedence 'A' '.' "N...".data "100644".data "100644".data
    "100644".data "aaa".data "bbb".data "R90".data "p.txt".data "o".data "n".data
    (by decide) (by decide) (by decide) _ _ (Or.inl ⟨rfl, rfl⟩)
  rw [h]
  rfl

/-! ## C8: tree building is deterministic and idempotent

The only nondeterminism in NewTreeModel is the Go map iteration order
producing allDirs, which sort.Strings immediately normalises.  The theorem
quantifies over every enumeration order the two builds could observe. -/

/-- lexLt is asymmetric. -/
theorem lexLt_asymm : ∀ u v : List Char, lexLt u v = true → lexLt v u = false := by
  intro u
  induction u with
  | nil =>
    intro v h
    cases v with
    | nil => simp [lexLt] at h
    | cons b bs => rfl
  | cons a as ih =>
    intro v h
    cases v with
    | nil => simp [lexLt] at h
    | cons b bs =>
      by_cases hab : a < b
      · have hba : ¬ b < a := lt_asymm hab
        simp [lexLt, hba, hab]
      · by_cases hba : b < a
        · simp [lexLt, hab, hba] at h
        · simp only [lexLt, hab, hba, if_false] at h
          simp [lexLt, hab, hba, ih bs h]

/-- Two lists with neither below the other are equal. -/
theorem lexLt_conn : ∀ u v : List Char,
    lexLt u v = false → lexLt v u = false → u = v := by
  intro u
  induction u with
  | nil =>
    intro v h1 _
    cases v with
    | nil => rfl
    | cons b bs => simp [lexLt] at h1
  | cons a as ih =>
    intro v h1 h2
    cases v with
    | nil => simp [lexLt] at h2
    | cons b bs =>
      by_cases hab : a < b
      · simp [lexLt, hab] at h1
      · by_cases hba : b < a
        · simp [lexLt, hba] at h2
        · have hae : a = b := le_antisymm (not_lt.mp hba) (not_lt.mp hab)
          simp only [lexLt, hab, hba, if_false] at h1 h2
          rw [hae, ih bs h1 h2]

/-- lexLt is transitive. -/
theorem lexLt_trans : ∀ u v w : List Char,
    lexLt u v = true → lexLt v w = true → lexLt u w = true := by
  intro u
  induction u with
  | nil =>
    intro v w h1 h2
    cases v with
    | nil => simp [lexLt] at h1
    | cons b bs =>
      cases w with
      | nil => simp [lexLt] at h2
      | cons c cs => rfl
  | cons a as ih =>
    intro v w h1 h2
    cases v with
    | nil => simp [lexLt] at h1
    | cons b bs =>
      cases w with
      | nil => simp [lexLt] at h2
      | cons c cs =>
        by_cases hab : a < b
        · by_cases hbc : b < c
          · simp [lexLt, lt_trans hab hbc]
          · by_cases hcb : c < b
            · simp [lexLt, hbc, hcb] at h2
            · have hbe : b = c := le_antisymm (not_lt.mp hcb) (not_lt.mp hbc)
              rw [← hbe]
              simp [lexLt, hab]
        · by_cases hba : b < a
          · simp [lexLt, hab, hba] at h1
          · have hae : a = b := le_antisymm (not_lt.mp hba) (not_lt.mp hab)
            simp only [lexLt, hab, hba, if_false] at h1
            by_cases hbc : b < c
            · rw [hae]
              simp [lexLt, hbc]
            · by_cases hcb : c < b
              · simp [lexLt, hbc, hcb] at h2
              · simp only [lexLt, hbc, hcb, if_false] at h2
                have hbe : b = c := le_antisymm (not_lt.mp hcb) (not_lt.mp hbc)
                rw [hae, hbe]
                simp [lexLt, ih bs cs h1 h2]

/-- strLe is total. -/
theorem strLe_total : ∀ a b : String, strLe a b = true ∨ strLe b a = true := by
  intro a b
  by_cases h : lexLt b.data a.data = true
  · right
    have := lexLt_asymm _ _ h
    simp [strLe, lexLe, this]
  · left
    simp only [Bool.not_eq_true] at h
    simp [strLe, lexLe, h]

/-- strLe is antisymmetric. -/
theorem strLe_antisymm : ∀ a b : String,
    strLe a b = true → strLe b a = true → a = b := by
  intro a b h1 h2
  simp only [strLe, lexLe, Bool.not_eq_true', Bool.not_eq_eq_eq_not] at h1 h2
  have hd : a.data = b.data := lexLt_conn a.data b.data (by simpa using h2) (by simpa using h1)
  cases a
  cases b
  exact congrArg String.mk hd

/-- strLe is transitive. -/
theorem strLe_trans : ∀ a b c : String,
    strLe a b = true → strLe b c = true → strLe a c = true := by
  intro a b c h1 h2
  simp only [strLe, lexLe, Bool.not_eq_true', Bool.not_eq_eq_eq_not] at h1 h2 ⊢
  by_cases h : lexLt c.data a.data = true
  · by_cases hcb : lexLt c.data b.data = true
    · rw [hcb] at h2
      exact absurd h2 (by simp)
    · simp only [Bool.not_eq_true] at hcb
      by_cases hbc : lexLt b.data c.data = true
      · have := lexLt_trans _ _ _ hbc h
        rw [this] at h1
        exact absurd h1 (by simp)
      · simp only [Bool.not_eq_true] at hbc
        have hbe : b.data = c.data := lexLt_conn _ _ hbc hcb
        rw [← hbe] at h
        rw [h] at h1
        exact absurd h1 (by simp)
  · simp only [Bool.not_eq_true] at h
    rw [h]
    decide

/-- Inserting two elements commutes for a linear le. -/
theorem insertLe_comm {α : Type} (le : α → α → Bool)
    (htot : ∀ a b, le a b = true ∨ le b a = true)
    (hanti : ∀ a b, le a b = true → le b a = true → a = b)
    (htrans : ∀ a b c, le a b = true → le b c = true → le a c = true)
    (x y : α) (l : List α) :
    insertLe le x (insertLe le y l) = insertLe le y (insertLe le x l) := by
  induction l with
  | nil =>
    by_cases hxy : le x y = true <;> by_cases hyx : le y x = true
    · obtain rfl := hanti x y hxy hyx
      rfl
    · simp [insertLe, hxy, hyx]
    · simp [insertLe, hxy, hyx]
    · rcases htot x y with h | h <;> simp [h] at hxy hyx
  | cons a l ih =>
    by_cases hxa : le x a = true <;> by_cases hya : le y a = true
    · by_cases hxy : le x y = true <;> by_cases hyx : le y x = true
      · obtain rfl := hanti x y hxy hyx
        rfl
      · simp [insertLe, hxa, hya, hxy, hyx]
      · simp [insertLe, hxa, hya, hxy, hyx]
      · rcases htot x y with h | h <;> simp [h] at hxy hyx
    · have hyx : le y x = false := by
        cases h : le y x
        · rfl
        · exact absurd (htrans y x a h hxa) (by simp [hya])
      have hxy : le x y = true := by
        rcases htot x y with h | h
        · exact h
        · rw [h] at hyx
          exact absurd hyx (by simp)
      simp [insertLe, hxa, hya, hxy, hyx]
    · have hxy : le x y = false := by
        cases h : le x y
        · rfl
        · exact absurd (htrans x y a h hya) (by simp [hxa])
      have hyx : le y x = true := by
        rcases htot x y with h | h
        · rw [h] at hxy
          exact absurd hxy (by simp)
        · exact h
      simp [insertLe, hxa, hya, hxy, hyx]
    · simp [insertLe, hxa, hya, ih]

/-- Sorting is invariant under permutation of the input, for a linear le. -/
theorem sortLe_eq_of_perm {α : Type} (le : α → α → Bool)
    (htot : ∀ a b, le a b = true ∨ le b a = true)
    (hanti : ∀ a b, le a b = true → le b a = true → a = b)
    (htrans : ∀ a b c, le a b = true → le b c = true → le a c = true)
    {l₁ l₂ : List α} (h : l₁.Perm l₂) :
    sortLe le l₁ = sortLe le l₂ := by
  induction h with
  | nil => rfl
  | cons x _ ih => simp only [sortLe, ih]
  | swap x y l => exact insertLe_comm le htot hanti htrans y x (sortLe le l)
  | trans _ _ ih1 ih2 => exact ih1.trans ih2

/-- sort.Strings sees only the set, not the enumeration order. -/
theorem sortStrings_eq_of_perm {e1 e2 : List String} (h : e1.Perm e2) :
    sortStrings e1 = sortStrings e2 :=
  sortLe_eq_of_perm strLe strLe_total strLe_antisymm strLe_trans h

/-- The build loop is invariant under the observed enumeration orders. -/
theorem buildAllAux_eq_of_validEnums (repos : List Repo) :
    ∀ (e1 e2 : List (List String)) (i : Nat) (acc : List TreeNode),
    validEnums repos e1 → validEnums repos e2 →
    buildAllAux i (repos.zip e1) acc = buildAllAux i (repos.zip e2) acc := by
  induction repos with
  | nil =>
    intro e1 e2 i acc h1 h2
    cases e1 with
    | nil =>
      cases e2 with
      | nil => rfl
      | cons a2 e2' => exact h2.elim
    | cons a1 e1' => exact h1.elim
  | cons r rs ih =>
    intro e1 e2 i acc h1 h2
    cases e1 with
    | nil => exact h1.elim
    | cons a1 e1' =>
      cases e2 with
      | nil => exact h2.elim
      | cons a2 e2' =>
        obtain ⟨hp1, hv1⟩ := h1
        obtain ⟨hp2, hv2⟩ := h2
        show buildAllAux (i + 1) (rs.zip e1') (buildRepoBlock i r a1 acc) = _
        have hb : buildRepoBlock i r a1 acc = buildRepoBlock i r a2 acc := by
          unfold buildRepoBlock
          rw [show sortStrings a1 = sortStrings a2 from
            sortStrings_eq_of_perm (hp1.trans hp2.symm)]
        rw [hb]
        exact ih e1' e2' (i + 1) (buildRepoBlock i r a2 acc) hv1 hv2

/-- C8: the tree build is deterministic: two builds from the same
Repository list, whatever dirSet enumeration orders the two map ranges
produce, yield the same node sequence, VisibilityIndex, collapse flags and
cursor; NewTreeModel is the canonical instance of that build. -/
theorem C8_build_deterministic (repos : List Repo) (e1 e2 : List (List String))
    (h1 : validEnums repos e1) (h2 : validEnums repos e2) :
    buildTreeWith repos e1 = buildTreeWith repos e2 ∧
    NewTreeModel repos = buildTreeWith repos (canonicalEnums repos) := by
  refine ⟨?_, rfl⟩
  unfold buildTreeWith
  rw [buildAllAux_eq_of_validEnums repos e1 e2 0 [] h1 h2]

/-- One repository with two directories, for exercising two different
enumeration orders. -/
def sampleReposTwoDirs : List Repo :=
  [{ path := "/w/q", relPath := "q", branch := "m",
     files := [{ path := "a/x.go", status := StatusCode.added },
               { path := "b/y.go", status := StatusCode.added }] }]

/-- Witness for C8: the two opposite enumeration orders of the dirSet
{a, b} build identical trees. -/
theorem C8_witness :
    buildTreeWith sampleReposTwoDirs [["a", "b"]] =
      buildTreeWith sampleReposTwoDirs [["b", "a"]] :=
  (C8_build_deterministic sampleReposTwoDirs [["a", "b"]] [["b", "a"]]
    ⟨List.Perm.refl _, trivial⟩ ⟨List.Perm.swap "a" "b" [], trivial⟩).1

/-! ## C9: visibility is exactly the absence of collapsed ancestors -/

/-- Membership in the rebuilt visible list. -/
theorem mem_visibleList_iff (nodes : List TreeNode) (i : Nat) :
    i ∈ visibleList nodes ↔ i < nodes.length ∧ keepNodeAt nodes i = true := by
  unfold visibleList
  simp [List.mem_filter, List.mem_range]

/-- Index bound from a successful lookup. -/
theorem lt_of_getElem?_some {α : Type} (l : List α) (i : Nat) (a : α)
    (h : l[i]? = some a) : i < l.length := by
  rcases List.getElem?_eq_some.mp h with ⟨hlt, _⟩
  exact hlt

/-- One well-formedness fact at one index. -/
theorem wfNodes_at (nodes : List TreeNode) (hwf : wfNodes nodes = true)
    (i : Nat) (n : TreeNode) (h : nodes[i]? = some n) : nodeWF i n = true := by
  unfold wfNodes at hwf
  have hi : i < nodes.length := lt_of_getElem?_some nodes i n h
  have := List.all_eq_true.mp hwf i (List.mem_range.mpr hi)
  rw [h] at this
  exact this

/-- The parent link of a well formed node points strictly downward. -/
theorem nodeWF_parent_lt (i : Nat) (n : TreeNode) (hwf : nodeWF i n = true)
    (p : Nat) (hp : n.parentDir = some p) : p < i := by
  unfold nodeWF at hwf
  rw [hp] at hwf
  simp only [Bool.and_eq_true, decide_eq_true_eq] at hwf
  exact hwf.1

/-- A well formed repository node has no parent. -/
theorem nodeWF_repo_no_parent (i : Nat) (n : TreeNode) (hwf : nodeWF i n = true)
    (hk : n.kind = NodeKind.repo) : n.parentDir = none := by
  unfold nodeWF at hwf
  rw [hk] at hwf
  simp only [Bool.and_eq_true, decide_eq_true_eq] at hwf
  exact hwf.2

/-- The fuelled ancestor walk decides ChainClear, given enough fuel and the
downward parent invariant. -/
theorem isAncExp_iff_chainClear (nodes : List TreeNode) (hwf : wfNodes nodes = true) :
    ∀ (fuel i : Nat) (n : TreeNode), nodes[i]? = some n → i < fuel →
      (isAncExp nodes fuel n = true ↔ ChainClear nodes n) := by
  intro fuel
  induction fuel with
  | zero => intro i n _ hi; exact absurd hi (Nat.not_lt_zero i)
  | succ f ih =>
    intro i n hn hi
    cases hpd : n.parentDir with
    | none =>
      constructor
      · intro _
        exact ChainClear.top n hpd
      · intro _
        simp [isAncExp, hpd]
    | some p =>
      have hwfn := wfNodes_at nodes hwf i n hn
      have hpi : p < i := nodeWF_parent_lt i n hwfn p hpd
      have hilen : i < nodes.length := lt_of_getElem?_some nodes i n hn
      have hplen : p < nodes.length := Nat.lt_trans hpi hilen
      obtain ⟨par, hpar⟩ : ∃ q, nodes[p]? = some q :=
        ⟨_, List.getElem?_eq_getElem hplen⟩
      cases hc : par.collapsed with
      | true =>
        constructor
        · intro habs
          rw [show isAncExp nodes (f + 1) n = false by simp [isAncExp, hpd, hpar, hc]] at habs
          exact absurd habs (by simp)
        · intro hcc
          cases hcc with
          | top _ h => rw [hpd] at h; exact absurd h (by simp)
          | step _ p' par' hpd' hpar' hcol' _ =>
            rw [hpd] at hpd'
            injection hpd' with he
            subst he
            rw [hpar] at hpar'
            injection hpar' with he2
            rw [← he2] at hcol'
            rw [hc] at hcol'
            exact absurd hcol' (by simp)
      | false =>
        have hiff := ih p par hpar (by omega)
        constructor
        · intro h
          rw [show isAncExp nodes (f + 1) n = isAncExp nodes f par by
            simp [isAncExp, hpd, hpar, hc]] at h
          exact ChainClear.step n p par hpd hpar hc (hiff.mp h)
        · intro hcc
          cases hcc with
          | top _ h => rw [hpd] at h; exact absurd h (by simp)
          | step _ p' par' hpd' hpar' hcol' hcc' =>
            rw [hpd] at hpd'
            injection hpd' with he
            subst he
            rw [hpar] at hpar'
            injection hpar' with he2
            subst he2
            rw [show isAncExp nodes (f + 1) n = isAncExp nodes f par by
              simp [isAncExp, hpd, hpar, hc]]
            exact hiff.mpr hcc'

/-- C9: on a structurally well formed node sequence (as every tree this
program builds is: parent indices point strictly downward and repository
nodes have none), a node index is in the recomputed VisibilityIndex iff the
walk up its parentDir chain meets no collapsed node; repository nodes are
always included; and a node whose own collapsed flag is set is still
included while its proper ancestors are all expanded. -/
theorem C9_visibility_iff (nodes : List TreeNode) (hwf : wfNodes nodes = true)
    (i : Nat) (n : TreeNode) (hn : nodes[i]? = some n) :
    ((i ∈ visibleList nodes) ↔ ChainClear nodes n) ∧
    (n.kind = NodeKind.repo → i ∈ visibleList nodes) ∧
    (n.collapsed = true → ChainClear nodes n → i ∈ visibleList nodes) := by
  have hilen : i < nodes.length := lt_of_getElem?_some nodes i n hn
  have hkeep : keepNodeAt nodes i = true ↔ ChainClear nodes n := by
    unfold keepNodeAt
    simp only [hn]
    cases hk : n.kind with
    | repo =>
      have hpd := nodeWF_repo_no_parent i n (wfNodes_at nodes hwf i n hn) hk
      constructor
      · intro _
        exact ChainClear.top n hpd
      · intro _
        rfl
    | dir =>
      show isAncestorExpanded nodes n = true ↔ _
      exact isAncExp_iff_chainClear nodes hwf nodes.length i n hn hilen
    | file =>
      show isAncestorExpanded nodes n = true ↔ _
      exact isAncExp_iff_chainClear nodes hwf nodes.length i n hn hilen
  refine ⟨?_, ?_, ?_⟩
  · rw [mem_visibleList_iff]
    constructor
    · intro h
      exact hkeep.mp h.2
    · intro hcc
      exact ⟨hilen, hkeep.mpr hcc⟩
  · intro hrepo
    rw [mem_visibleList_iff]
    refine ⟨hilen, ?_⟩
    unfold keepNodeAt
    simp only [hn, hrepo]
  · intro _ hcc
    rw [mem_visibleList_iff]
    exact ⟨hilen, hkeep.mpr hcc⟩

/-- Witness for C9: in the sample tree the file node at index 2 is visible
because its ancestor chain (directory at 1, repository at 0) carries no
collapsed flag. -/
theorem C9_witness : 2 ∈ visibleList sampleTree.nodes :=
  (C9_visibility_iff sampleTree.nodes (by decide) 2
    { kind := NodeKind.file, repoIndex := 0,
      file := some { path := "src/main.go", status := StatusCode.added },
      dirPath := "", depth := 2, collapsed := false, parentDir := some 1 }
    (by decide)).1.mpr
    (ChainClear.step _ 1
      { kind := NodeKind.dir, repoIndex := 0, file := none, dirPath := "src",
        depth := 1, collapsed := false, parentDir := some 0 }
      rfl (by decide) rfl
      (ChainClear.step _ 0
        { kind := NodeKind.repo, repoIndex := 0, file := none, dirPath := "",
          depth := 0, collapsed := false, parentDir := none }
        rfl (by decide) rfl
        (ChainClear.top _ rfl)))

/-! ## Structural well-formedness of every tree the program builds -/

/-- Pointwise characterisation of wfNodes. -/
theorem wfNodes_iff (nodes : List TreeNode) :
    wfNodes nodes = true ↔ ∀ i n, nodes[i]? = some n → nodeWF i n = true := by
  constructor
  · exact fun h i n hn => wfNodes_at nodes h i n hn
  · intro h
    unfold wfNodes
    rw [List.all_eq_true]
    intro i _
    cases hni : nodes[i]? with
    | none => rfl
    | some n => exact h i n hni

/-- Appending nodes that are well formed at their final indices preserves
well-formedness. -/
theorem wfNodes_append (ns ext : List TreeNode) (h1 : wfNodes ns = true)
    (h2 : ∀ j m, ext[j]? = some m → nodeWF (ns.length + j) m = true) :
    wfNodes (ns ++ ext) = true := by
  rw [wfNodes_iff]
  intro i m him
  rw [List.getElem?_append] at him
  by_cases hlt : i < ns.length
  · rw [if_pos hlt] at him
    exact wfNodes_at ns h1 i m him
  · rw [if_neg hlt] at him
    have hres := h2 (i - ns.length) m him
    have heq : ns.length + (i - ns.length) = i := by omega
    rw [heq] at hres
    exact hres

/-- A node with a downward parent link and non repository kind is well
formed at its index. -/
theorem nodeWF_dir_file (i : Nat) (n : TreeNode) (hk : n.kind ≠ NodeKind.repo)
    (p : Nat) (hp : n.parentDir = some p) (hlt : p < i) : nodeWF i n = true := by
  unfold nodeWF
  rw [hp]
  cases hkk : n.kind with
  | repo => exact absurd hkk hk
  | dir => simp [hlt]
  | file => simp [hlt]

/-- A node without a parent link is well formed at every index. -/
theorem nodeWF_of_parent_none (i : Nat) (n : TreeNode) (hp : n.parentDir = none) :
    nodeWF i n = true := by
  unfold nodeWF
  rw [hp]
  cases hkk : n.kind <;> simp

/-- A lookup result obeys a bound that holds for every table entry. -/
theorem lookup_lt (l : List (String × Nat)) (k : String) (v B : Nat)
    (h : List.lookup k l = some v) (hall : ∀ pr : String × Nat, pr ∈ l → pr.2 < B) :
    v < B := by
  induction l with
  | nil => simp [List.lookup] at h
  | cons pr t ih =>
    rw [List.lookup] at h
    cases hk : (k == pr.1) with
    | true =>
      simp only [hk] at h
      injection h with he
      rw [← he]
      exact hall pr (by simp)
    | false =>
      simp only [hk] at h
      exact ih h (fun q hq => hall q (by simp [hq]))

/-- The index table invariant of the build state: every recorded directory
node index points into the node list. -/
def idxBound (st : BuildSt) : Prop :=
  ∀ pr : String × Nat, pr ∈ st.dirIdx → pr.2 < st.nodes.length

/-- addDir preserves the build invariant: every index table entry points
into the node list, the node list only grows, and all nodes stay well
formed. -/
theorem addDir_wf (repoI repoIdx : Nat) (dfiles : String → List FileStatus) :
    ∀ (rparts : List String) (st : BuildSt),
    idxBound st →
    repoIdx < st.nodes.length →
    wfNodes st.nodes = true →
    idxBound (addDir repoI repoIdx dfiles rparts st) ∧
    st.nodes.length ≤ (addDir repoI repoIdx dfiles rparts st).nodes.length ∧
    wfNodes (addDir repoI repoIdx dfiles rparts st).nodes = true := by
  intro rparts
  induction rparts with
  | nil =>
    intro st hIdx hRepo hWf
    exact And.intro hIdx (And.intro (Nat.le_refl st.nodes.length) hWf)
  | cons seg rest ih =>
    intro st hIdx hRepo hWf
    cases hl : (List.lookup (joinSlash ((seg :: rest).reverse)) st.dirIdx : Option Nat) with
    | some v =>
      simp only [addDir, hl]
      exact And.intro hIdx (And.intro (Nat.le_refl st.nodes.length) hWf)
    | none =>
      have hA : idxBound (if rest.isEmpty then st
            else addDir repoI repoIdx dfiles rest st) ∧
          st.nodes.length ≤ (if rest.isEmpty then st
            else addDir repoI repoIdx dfiles rest st).nodes.length ∧
          wfNodes (if rest.isEmpty then st
            else addDir repoI repoIdx dfiles rest st).nodes = true := by
        cases hre : rest.isEmpty with
        | true =>
          simp only [hre, if_true]
          exact And.intro hIdx (And.intro (Nat.le_refl st.nodes.length) hWf)
        | false =>
          simp only [hre, Bool.false_eq_true, if_false]
          exact ih st hIdx hRepo hWf
      obtain ⟨hAidx, hAlen, hAwf⟩ := hA
      have hRepoA : repoIdx < (if rest.isEmpty then st
          else addDir repoI repoIdx dfiles rest st).nodes.length := by omega
      have hParent : (if rest.isEmpty then repoIdx
          else (List.lookup (joinSlash rest.reverse) (if rest.isEmpty then st
            else addDir repoI repoIdx dfiles rest st).dirIdx).getD 0) <
          (if rest.isEmpty then st
            else addDir repoI repoIdx dfiles rest st).nodes.length := by
        cases hre : rest.isEmpty with
        | true => simpa [hre] using hRepoA
        | false =>
          have hAidx2 : idxBound (addDir repoI repoIdx dfiles rest st) := by
            rw [hre] at hAidx
            simpa using hAidx
          simp only [hre, Bool.false_eq_true, if_false]
          cases hlk : (List.lookup (joinSlash rest.reverse)
              (addDir repoI repoIdx dfiles rest st).dirIdx : Option Nat) with
          | some v =>
            simp only [Option.getD_some]
            exact lookup_lt _ _ v _ hlk hAidx2
          | none =>
            simp only [Option.getD_none]
            have := hRepoA
            simp only [hre, Bool.false_eq_true, if_false] at this
            omega
      simp only [addDir, hl]
      refine ⟨?_, ?_, ?_⟩
      · intro pr hpr
        simp only [List.mem_cons] at hpr
        simp only [List.length_append, List.length_cons]
        rcases hpr with rfl | hpr
        · simp
        · have := hAidx pr hpr
          omega
      · simp only [List.length_append, List.length_cons]
        omega
      · apply wfNodes_append _ _ hAwf
        intro j m hjm
        cases j with
        | zero =>
          simp only [List.getElem?_cons_zero] at hjm
          injection hjm with he
          rw [← he]
          exact nodeWF_dir_file _ _ (by simp) _ rfl (by omega)
        | succ k =>
          simp only [List.getElem?_cons_succ] at hjm
          have hm := List.getElem?_mem hjm
          rcases List.mem_map.mp hm with ⟨f, _, hf⟩
          rw [← hf]
          exact nodeWF_dir_file _ _ (by simp) _ rfl (by omega)

/-- The directory fold preserves the build invariant. -/
theorem foldl_addDir_wf (repoI repoIdx : Nat) (dfiles : String → List FileStatus)
    (dirs : List String) :
    ∀ (st0 : BuildSt),
    idxBound st0 →
    repoIdx < st0.nodes.length →
    wfNodes st0.nodes = true →
    st0.nodes.length ≤ (dirs.foldl
        (fun s d => addDir repoI repoIdx dfiles (splitSlash d).reverse s) st0).nodes.length ∧
    wfNodes (dirs.foldl
        (fun s d => addDir repoI repoIdx dfiles (splitSlash d).reverse s) st0).nodes = true := by
  induction dirs with
  | nil => exact fun st0 _ _ hWf => ⟨Nat.le_refl _, hWf⟩
  | cons d ds ih =>
    intro st0 hIdx hRepo hWf
    obtain ⟨hi1, hl1, hw1⟩ := addDir_wf repoI repoIdx dfiles (splitSlash d).reverse st0
      hIdx hRepo hWf
    have hrest := ih (addDir repoI repoIdx dfiles (splitSlash d).reverse st0) hi1
      (by omega) hw1
    exact ⟨Nat.le_trans hl1 hrest.1, hrest.2⟩

/-- One repository block keeps the whole node list well formed. -/
theorem buildRepoBlockSorted_wf (repoI : Nat) (r : Repo) (allDirs : List String)
    (acc : List TreeNode) (hacc : wfNodes acc = true) :
    wfNodes (buildRepoBlockSorted repoI r allDirs acc) = true := by
  unfold buildRepoBlockSorted
  have hwf0 : wfNodes (acc ++
      [{ kind := NodeKind.repo, repoIndex := repoI, file := none, dirPath := "",
         depth := 0, collapsed := false, parentDir := none : TreeNode }]) = true := by
    apply wfNodes_append _ _ hacc
    intro j m hjm
    cases j with
    | zero =>
      simp only [List.getElem?_cons_zero] at hjm
      injection hjm with he
      rw [← he]
      exact nodeWF_of_parent_none _ _ rfl
    | succ k => simp at hjm
  have hfold := foldl_addDir_wf repoI acc.length (dirFilesLookup r.files) allDirs
    { nodes := acc ++
        [{ kind := NodeKind.repo, repoIndex := repoI, file := none, dirPath := "",
           depth := 0, collapsed := false, parentDir := none : TreeNode }],
      dirIdx := [] }
    (by intro pr hpr; simp at hpr) (by simp) hwf0
  obtain ⟨hlen, hwf⟩ := hfold
  apply wfNodes_append _ _ hwf
  intro j m hjm
  have hm := List.getElem?_mem hjm
  rcases List.mem_map.mp hm with ⟨f, _, hf⟩
  rw [← hf]
  refine nodeWF_dir_file _ _ (by simp) acc.length rfl ?_
  simp only [List.length_append, List.length_cons] at hlen
  omega

/-- The whole build from well formed accumulated nodes stays well formed. -/
theorem buildAllAux_wf (prs : List (Repo × List String)) :
    ∀ (i : Nat) (acc : List TreeNode), wfNodes acc = true →
    wfNodes (buildAllAux i prs acc) = true := by
  induction prs with
  | nil => exact fun _ _ h => h
  | cons p rest ih =>
    intro i acc hacc
    exact ih (i + 1) _ (buildRepoBlockSorted_wf i p.1 (sortStrings p.2) acc hacc)

/-- Every tree NewTreeModel builds is structurally well formed, so the C9
characterisation applies to it. -/
theorem wfNodes_NewTreeModel (repos : List Repo) :
    wfNodes (NewTreeModel repos).nodes = true :=
  buildAllAux_wf (repos.zip (canonicalEnums repos)) 0 [] rfl

/-- ToggleCollapse only flips a collapsed flag, preserving structural
well-formedness, so the C9 characterisation keeps applying after every
collapse toggle. -/
theorem wfNodes_ToggleCollapse (tm : TreeModel) (h : wfNodes tm.nodes = true) :
    wfNodes (ToggleCollapse tm).nodes = true := by
  unfold ToggleCollapse
  cases hv : tm.visible[tm.cursor]? with
  | none => exact h
  | some i =>
    show wfNodes (match tm.nodes[i]? with
      | none => tm
      | some n =>
        match n.kind with
        | NodeKind.file => tm
        | _ => rebuildVisible
            { tm with nodes := tm.nodes.set i { n with collapsed := !n.collapsed } }).nodes = true
    cases hni : tm.nodes[i]? with
    | none => exact h
    | some n =>
      obtain ⟨k, ri, fo, dp, dep, co, pd⟩ := n
      have hset : wfNodes (tm.nodes.set i
          { kind := k, repoIndex := ri, file := fo, dirPath := dp, depth := dep,
            collapsed := !co, parentDir := pd }) = true := by
        rw [wfNodes_iff]
        intro j m hjm
        by_cases hij : i = j
        · subst hij
          rw [List.getElem?_set_self', hni] at hjm
          simp only [Option.map_some] at hjm
          have he := Option.some.inj hjm
          rw [← he]
          show nodeWF i (⟨k, ri, fo, dp, dep, co, pd⟩ : TreeNode) = true
          exact wfNodes_at _ h i _ hni
        · rw [List.getElem?_set_ne hij] at hjm
          exact wfNodes_at _ h j m hjm
      cases k with
      | file => exact h
      | repo => exact hset
      | dir => exact hset
